import Mathlib

/-!
Verification development for the access-controlled knowledge-base engine of
`agent-with-search/documentai.py` (class `AzureAISearchKnowledgeBase`).

The persisted data model is the chunk record; operations are
`upload_document`, `search`, `delete_document` and `share_document`.
External collaborators (per the design: the host search index, the embedding
capability, per-format text extractors, clocks) are modelled as explicit
parameters:

* the extractor's output is the `text : String` input of `upload_document`;
* the embedding capability is a parameter `embed : String → Option Emb`
  (`none` models a per-call embedding failure; the float vector values are
  opaque to every property here, so vectors are modelled over `Int`);
* the host index is a `List ChunkRecord` threaded through the operations;
  its batch upsert / merge / delete primitives are modelled set-wise below;
* the host's relevance ordering is an arbitrary parameter
  `rank : List ChunkRecord → List ChunkRecord`; theorems assume only that
  ranking permutes the filtered result set (`∀ l, (rank l).Perm l`);
* timestamps are an opaque `uploaded_at : String` parameter.

Python string operations are modelled at the character-list level, because
that is both their semantics and kernel-reducible:
`text.split()` splits on whitespace and discards empty pieces;
truthiness of `s.strip()` is "s contains a non-whitespace character";
`s.replace(c, d)` for one-character patterns is a character map.
-/

namespace DocAI

/-- Embedding vectors. The real vectors are float lists produced by the
external embedding service; their numeric content is irrelevant to every
property of the knowledge base, so they are modelled over `Int`. -/
abbrev Emb := List Int

/-- The sole persisted entity: one chunk of one uploaded document, as built
by `upload_document` (documentai.py lines 291-303) against the index schema
of `_create_index_if_not_exists`. -/
structure ChunkRecord where
  id : String
  content : String
  document_name : String
  chunk_id : Nat
  user_id : String
  owner_user_id : String
  is_shared : Bool
  allowed_users : List String
  uploaded_at : String
  content_vector : Emb
deriving DecidableEq, Repr

/-- Python `text.split()`: split on whitespace runs, no empty pieces.
`List.splitOnP` cuts at every whitespace character (producing empty pieces
between adjacent separators), and the filter discards the empty pieces,
which is exactly Python's whitespace `split`. -/
def pySplit (text : String) : List String :=
  ((text.data.splitOnP Char.isWhitespace).map (fun l => (⟨l⟩ : String))).filter
    (fun w => w != "")

/-- Truthiness of Python `s.strip()`: the stripped string is non-empty iff
`s` contains at least one non-whitespace character. -/
def hasNonWs (s : String) : Bool :=
  s.data.any (fun c => !c.isWhitespace)

/-- Python `" ".join(ws)`. -/
def joinWords (ws : List String) : String :=
  String.intercalate " " ws

deriving instance DecidableEq for Except

/-- The untyped Python exceptions the modelled code can raise. -/
inductive PyExn where
  /-- `range() arg 3 must not be zero`, raised by `range(0, n, 0)`. -/
  | valueError
deriving DecidableEq, Repr

/-- Python `range(0, stop, step)` for an arbitrary integer `step`:
`step = 0` raises `ValueError`; a negative `step` (with `stop ≥ 0`) gives an
empty range; a positive `step` gives `ceil(stop/step)` values
`0, step, 2*step, …`. -/
def pythonRange (stop : Nat) (step : Int) : Except PyExn (List Nat) :=
  if step = 0 then .error .valueError
  else if step < 0 then .ok []
  else .ok (List.range' 0 ((stop + step.toNat - 1) / step.toNat) step.toNat)

/-- Python slice `l[a : b]` (step 1): negative indices count from the end,
then both bounds are clamped to `[0, len l]`. -/
def pySlice (l : List α) (a b : Int) : List α :=
  let n : Int := l.length
  let a' := (if a < 0 then max (n + a) 0 else min a n).toNat
  let b' := (if b < 0 then max (n + b) 0 else min b n).toNat
  (l.drop a').take (b' - a')

/-- The loop body of `_create_chunks` after `words = text.split()`
(documentai.py lines 331-338): for `i in range(0, len(words), chunk_size -
overlap)`, join `words[i : i + chunk_size]` and keep the chunk when its
stripped form is truthy. -/
def chunksFromWords (words : List String) (chunk_size overlap : Int) :
    Except PyExn (List String) :=
  match pythonRange words.length (chunk_size - overlap) with
  | .error e => .error e
  | .ok starts =>
      .ok ((starts.map
        (fun (i : Nat) =>
          joinWords (pySlice words (i : Int) ((i : Int) + chunk_size)))).filter
          hasNonWs)

/-- `_create_chunks(text, chunk_size=1000, overlap=200)` (documentai.py
lines 328-338). No parameter validation is performed by the source. -/
def create_chunks (text : String) (chunk_size : Int := 1000) (overlap : Int := 200) :
    Except PyExn (List String) :=
  chunksFromWords (pySplit text) chunk_size overlap

/-- The safe document id of `upload_document` (documentai.py lines 269-270):
replace `.` and space by `_`, then keep only alphanumeric characters and
`_`, `-`, `=`. One-character `str.replace` is a character map. -/
def sanitizeDocName (doc_name : String) : String :=
  let s1 : String := ⟨doc_name.data.map (fun c => if c == '.' then '_' else c)⟩
  let s2 : String := ⟨s1.data.map (fun c => if c == ' ' then '_' else c)⟩
  ⟨s2.data.filter (fun c => c.isAlphanum || c == '_' || c == '-' || c == '=')⟩

/-- Host index batch upsert keyed by `id`
(`search_client.upload_documents`): records whose id is re-written are
replaced, the rest are kept, the new batch is stored. -/
def upload_documents (idx new : List ChunkRecord) : List ChunkRecord :=
  idx.filter (fun r => !(new.any (fun d => d.id == r.id))) ++ new

/-- Host index partial update keyed by `id`
(`search_client.merge_documents`): each listed id gets the new
`allowed_users` value, every other field and record is untouched. -/
def merge_documents (idx : List ChunkRecord) (updates : List (String × List String)) :
    List ChunkRecord :=
  idx.map (fun r =>
    match updates.find? (fun u => u.1 == r.id) with
    | some u => { r with allowed_users := u.2 }
    | none => r)

/-- Host index query (`search_client.search`): the mandatory boolean filter
is applied to the stored records, the host orders the matches by relevance
(the opaque `rank`), and `top` truncates when supplied. Iterating the result
without `top` pages through every match. -/
def hostSearch (rank : List ChunkRecord → List ChunkRecord)
    (idx : List ChunkRecord) (filt : ChunkRecord → Bool) (top : Option Nat) :
    List ChunkRecord :=
  let ranked := rank (idx.filter filt)
  match top with
  | some k => ranked.take k
  | none => ranked

/-- The access-control filter expression built by `search` (documentai.py
lines 367-371): `owner_user_id eq u or is_shared eq true or
allowed_users/any(x: x eq u)`. -/
def visFilter (user_id : String) (r : ChunkRecord) : Bool :=
  r.owner_user_id == user_id || r.is_shared || r.allowed_users.contains user_id

/-- Python `list(set(cur + tgt))` (documentai.py line 530). A Python set
iterates in an unspecified order, so only the set of elements is meaningful;
the model fixes deduplication by `List.dedup` and every property proved
about `allowed_users` is order-insensitive. -/
def pySetUnion (cur tgt : List String) : List String :=
  (cur ++ tgt).dedup

/-- Extensional equality of `allowed_users` values (Python set equality). -/
def sameSet (a b : List String) : Prop :=
  a ⊆ b ∧ b ⊆ a

instance : DecidablePred (fun p : List String × List String => sameSet p.1 p.2) :=
  fun _ => by unfold sameSet; infer_instance

instance (a b : List String) : Decidable (sameSet a b) := by
  unfold sameSet; infer_instance

/-- The exit paths of `upload_document`. The source returns a bare
`True`/`False`; the distinct paths are observable through the printed
messages, so the model records them. `success` carries the chunk count the
success message reports, which is `len(chunks)` — the number of generated
chunks, not the number that survived embedding. -/
inductive UploadResult where
  /-- `return True` with `✅ Uploaded and indexed … ({n} chunks …)`. -/
  | success (reportedChunkCount : Nat)
  /-- `return False` after `❌ No text extracted` (line 261-263). -/
  | noTextExtracted
  /-- `return False` from the surrounding `except` handler. -/
  | errored
deriving DecidableEq, Repr

/-- What a call of `upload_document` leaves behind: the returned result, the
index state, and the contents of the caller's `allowed_users` list object
after the call (Python mutates the passed list in place; `none` when the
caller passed `None`). -/
structure UploadOut where
  result : UploadResult
  index : List ChunkRecord
  callerAllowed : Option (List String)
deriving DecidableEq, Repr

/-- The indexing loop of `upload_document` (documentai.py lines 285-304):
`for idx, chunk in enumerate(chunks)`, skip the chunk when its embedding
fails (`continue`), otherwise build the chunk record. -/
def buildDocs (safe doc_name user_id : String) (is_shared : Bool)
    (allowed : List String) (uploaded_at : String) (embed : String → Option Emb) :
    Nat → List String → List ChunkRecord
  | _, [] => []
  | i, ch :: rest =>
    match embed ch with
    | none => buildDocs safe doc_name user_id is_shared allowed uploaded_at embed (i + 1) rest
    | some v =>
        { id := safe ++ "_" ++ toString i
          content := ch
          document_name := doc_name
          chunk_id := i
          user_id := user_id
          owner_user_id := user_id
          is_shared := is_shared
          allowed_users := allowed
          uploaded_at := uploaded_at
          content_vector := v } ::
        buildDocs safe doc_name user_id is_shared allowed uploaded_at embed (i + 1) rest

/-- `upload_document(file_path, user_id, is_shared, allowed_users)`
(documentai.py lines 227-325), entered after the per-format extractor has
produced `text` (extraction is an external collaborator). Steps, in source
order: fail when no text was extracted; chunk (a chunking exception would be
caught by the surrounding `except`, returning `False`); sanitize the
document name; default `allowed_users` to `[]` and append the owner in
place when absent; build one record per chunk whose embedding succeeds;
batch-upsert the surviving records. -/
def upload_document (text doc_name user_id : String) (is_shared : Bool)
    (allowed_users : Option (List String)) (embed : String → Option Emb)
    (uploaded_at : String) (idx : List ChunkRecord) : UploadOut :=
  if !(hasNonWs text) then
    { result := .noTextExtracted, index := idx, callerAllowed := allowed_users }
  else
    match create_chunks text with
    | .error _ => { result := .errored, index := idx, callerAllowed := allowed_users }
    | .ok chunks =>
        let safe := sanitizeDocName doc_name
        let al0 := allowed_users.getD []
        let al := if user_id ∈ al0 then al0 else al0 ++ [user_id]
        let documents := buildDocs safe doc_name user_id is_shared al uploaded_at embed 0 chunks
        { result := .success chunks.length
          index := upload_documents idx documents
          callerAllowed := allowed_users.map (fun _ => al) }

/-- The projection of a chunk record that `search` returns (the `select`
fields of documentai.py lines 383/398 and the dict of lines 405-412; the
host-produced float scores are opaque and omitted). -/
structure SearchHit where
  content : String
  document_name : String
  owner : String
  is_shared : Bool
deriving DecidableEq, Repr

/-- `search(query, top_k, user_id)` (documentai.py lines 352-420). The
access-control filter is attached unconditionally; when the query embedding
fails the call degrades to the keyword-only branch, which issues the same
filtered query (the two branches differ only in the host's relevance
ordering, which `rank` absorbs). -/
def search (rank : List ChunkRecord → List ChunkRecord)
    (embed : String → Option Emb) (query : String) (top_k : Nat)
    (user_id : String) (idx : List ChunkRecord) : List SearchHit :=
  let results :=
    match embed query with
    | none => hostSearch rank idx (visFilter user_id) (some top_k)
    | some _ => hostSearch rank idx (visFilter user_id) (some top_k)
  results.map (fun r =>
    { content := r.content
      document_name := r.document_name
      owner := r.owner_user_id
      is_shared := r.is_shared })

/-- The exit paths of `delete_document`. -/
inductive DeleteResult where
  /-- `return False` after `❌ Permission denied` (lines 483-485). -/
  | permissionDenied
  /-- `return True` after deleting the chunks (lines 495-500). -/
  | deleted
  /-- `return False` after `❌ Document not found` (lines 501-503). -/
  | notFound
deriving DecidableEq, Repr

/-- `delete_document(doc_name, user_id, is_admin)` (documentai.py lines
466-507): unless admin, require at least one chunk with this document name
owned by the caller, else permission denied with the index untouched; then
delete every chunk matching the document name alone (no owner filter). -/
def delete_document (rank : List ChunkRecord → List ChunkRecord)
    (doc_name user_id : String) (is_admin : Bool) (idx : List ChunkRecord) :
    DeleteResult × List ChunkRecord :=
  if !is_admin &&
      (hostSearch rank idx
        (fun r => r.document_name == doc_name && r.owner_user_id == user_id)
        (some 1)).isEmpty then
    (.permissionDenied, idx)
  else
    let results := hostSearch rank idx (fun r => r.document_name == doc_name) none
    let doc_ids := results.map (fun r => r.id)
    if doc_ids.isEmpty then (.notFound, idx)
    else (.deleted, idx.filter (fun r => !(doc_ids.contains r.id)))

/-- The exit paths of `share_document`. -/
inductive ShareResult where
  /-- `return True` after merging the updates (lines 538-541). -/
  | shared
  /-- `return False`: `❌ Document not found or you don't own it`. -/
  | notFoundOrNotOwned
deriving DecidableEq, Repr

/-- `share_document(doc_name, owner_user_id, target_user_ids)`
(documentai.py lines 509-548): fetch the chunks matching both document name
and owner, replace each one's `allowed_users` by `list(set(current +
targets))` through a partial merge, fail when nothing matched. -/
def share_document (rank : List ChunkRecord → List ChunkRecord)
    (doc_name owner_user_id : String) (target_user_ids : List String)
    (idx : List ChunkRecord) : ShareResult × List ChunkRecord :=
  let results := hostSearch rank idx
    (fun r => r.document_name == doc_name && r.owner_user_id == owner_user_id) none
  let updated := results.map (fun r => (r.id, pySetUnion r.allowed_users target_user_ids))
  if updated.isEmpty then (.notFoundOrNotOwned, idx)
  else (.shared, merge_documents idx updated)

/-- The §4.4 visibility predicate, as a proposition over a requesting
identity and a chunk record: owner, or globally shared, or on the
allow-list. -/
def Visible (u : String) (r : ChunkRecord) : Prop :=
  r.owner_user_id = u ∨ r.is_shared = true ∨ u ∈ r.allowed_users

instance (u : String) (r : ChunkRecord) : Decidable (Visible u r) := by
  unfold Visible; infer_instance

/-- The homogeneity invariant of §3: chunks of one `(document_name,
owner_user_id)` pair never diverge in `is_shared` or `allowed_users`. -/
def Homog (idx : List ChunkRecord) : Prop :=
  ∀ r ∈ idx, ∀ s ∈ idx,
    r.document_name = s.document_name → r.owner_user_id = s.owner_user_id →
      r.is_shared = s.is_shared ∧ sameSet r.allowed_users s.allowed_users

instance (idx : List ChunkRecord) : Decidable (Homog idx) := by
  unfold Homog; infer_instance

/-- The per-record effect of one `share_document` call: a matching record
gets the deduplicated union, any other record is untouched. -/
def shareG (doc_name owner_user_id : String) (targets : List String)
    (r : ChunkRecord) : ChunkRecord :=
  if r.document_name = doc_name ∧ r.owner_user_id = owner_user_id then
    { r with allowed_users := pySetUnion r.allowed_users targets }
  else r

/-- Relation between a pre-call record and the corresponding post-call
record of `share_document`: every field except `allowed_users` is
unchanged, and `allowed_users` becomes the set union with the targets on
matching records while staying identical on the rest. -/
def shareRel (doc_name owner_user_id : String) (targets : List String)
    (r r' : ChunkRecord) : Prop :=
  r'.id = r.id ∧ r'.content = r.content ∧ r'.document_name = r.document_name ∧
  r'.chunk_id = r.chunk_id ∧ r'.user_id = r.user_id ∧
  r'.owner_user_id = r.owner_user_id ∧ r'.is_shared = r.is_shared ∧
  r'.uploaded_at = r.uploaded_at ∧ r'.content_vector = r.content_vector ∧
  (if r.document_name = doc_name ∧ r.owner_user_id = owner_user_id then
    sameSet r'.allowed_users (r.allowed_users ++ targets)
  else r'.allowed_users = r.allowed_users)

/-- Relation between the once-shared and twice-shared states: every field
except `allowed_users` unchanged and `allowed_users` equal as a set. -/
def shareIdemRel (r r' : ChunkRecord) : Prop :=
  r'.id = r.id ∧ r'.content = r.content ∧ r'.document_name = r.document_name ∧
  r'.chunk_id = r.chunk_id ∧ r'.user_id = r.user_id ∧
  r'.owner_user_id = r.owner_user_id ∧ r'.is_shared = r.is_shared ∧
  r'.uploaded_at = r.uploaded_at ∧ r'.content_vector = r.content_vector ∧
  sameSet r'.allowed_users r.allowed_users

/-- A concrete stored chunk: chunk 0 of alice's two-chunk `d.txt`, private. -/
def aliceChunk0 : ChunkRecord :=
  { id := "d_txt_0", content := "c0", document_name := "d.txt", chunk_id := 0,
    user_id := "alice", owner_user_id := "alice", is_shared := false,
    allowed_users := ["alice"], uploaded_at := "t0", content_vector := [0] }

/-- A concrete stored chunk: chunk 1 of alice's two-chunk `d.txt`, private. -/
def aliceChunk1 : ChunkRecord :=
  { id := "d_txt_1", content := "c1", document_name := "d.txt", chunk_id := 1,
    user_id := "alice", owner_user_id := "alice", is_shared := false,
    allowed_users := ["alice"], uploaded_at := "t0", content_vector := [1] }

/-! ## Word-level facts about the Python string model -/

/-- Every piece produced by `splitOnP` consists of non-separator elements. -/
theorem splitOnP_pieces {α : Type} {p : α → Bool} :
    ∀ (l : List α), ∀ piece ∈ l.splitOnP p, ∀ c ∈ piece, p c = false := by
  intro l
  induction l with
  | nil =>
    intro piece hp c hc
    rw [List.splitOnP_nil, List.mem_singleton] at hp
    subst hp
    cases hc
  | cons x xs ih =>
    intro piece hp c hc
    rw [List.splitOnP_cons] at hp
    by_cases hx : p x
    · rw [if_pos hx] at hp
      rcases List.mem_cons.1 hp with h | h
      · subst h; cases hc
      · exact ih piece h c hc
    · rw [if_neg hx] at hp
      rcases hsp : xs.splitOnP p with _ | ⟨h0, rest⟩
      · exact absurd hsp (List.splitOnP_ne_nil _ _)
      · rw [hsp] at hp
        simp only [List.modifyHead] at hp
        rcases List.mem_cons.1 hp with h | h
        · subst h
          rcases List.mem_cons.1 hc with h | h
          · subst h; exact eq_false_of_ne_true hx
          · exact ih h0 (hsp ▸ List.mem_cons_self _ _) c h
        · exact ih piece (hsp ▸ List.mem_cons_of_mem _ h) c hc

/-- Words produced by Python `split()` are non-empty and whitespace-free. -/
theorem pySplit_solid (text : String) :
    ∀ w ∈ pySplit text, w.data ≠ [] ∧ ∀ c ∈ w.data, c.isWhitespace = false := by
  intro w hw
  unfold pySplit at hw
  rw [List.mem_filter] at hw
  obtain ⟨hmem, hne⟩ := hw
  rw [List.mem_map] at hmem
  obtain ⟨piece, hpiece, rfl⟩ := hmem
  refine ⟨?_, fun c hc => splitOnP_pieces _ piece hpiece c hc⟩
  intro hnil
  rw [bne_iff_ne] at hne
  exact hne (by cases hnil; rfl)

/-- Unfolding of the `go` helper of `String.intercalate` at the data level. -/
theorem intercalate_go_data (s : String) :
    ∀ (l : List String) (acc : String),
      (String.intercalate.go acc s l).data =
        acc.data ++ (l.map (fun x => s.data ++ x.data)).flatten := by
  intro l
  induction l with
  | nil => intro acc; simp [String.intercalate.go]
  | cons a as ih =>
    intro acc
    rw [show String.intercalate.go acc s (a :: as) =
          String.intercalate.go (acc ++ s ++ a) s as from rfl, ih]
    simp

/-- A joined word list is "truthy after strip" as soon as one word
contributes a non-whitespace character. -/
theorem hasNonWs_joinWords {ws : List String} {w : String} (hw : w ∈ ws)
    {c : Char} (hcw : c ∈ w.data) (hcf : c.isWhitespace = false) :
    hasNonWs (joinWords ws) = true := by
  unfold hasNonWs joinWords
  rw [List.any_eq_true]
  refine ⟨c, ?_, by simp [hcf]⟩
  cases ws with
  | nil => cases hw
  | cons a as =>
    rw [show String.intercalate " " (a :: as) = String.intercalate.go a " " as from rfl]
    rw [intercalate_go_data]
    rcases List.mem_cons.1 hw with rfl | h
    · exact List.mem_append_left _ hcw
    · refine List.mem_append_right _ ?_
      rw [List.mem_flatten]
      exact ⟨" ".data ++ w.data, List.mem_map_of_mem _ h, List.mem_append_right _ hcw⟩

/-! ## C4 — chunking-parameter validation -/

/-- C4 counterexample: `chunk_size = 2, overlap = 3` violates
`0 ≤ overlap < chunk_size`, yet `_create_chunks` succeeds (Python
`range(0, n, -1)` is empty), returning an empty chunk list instead of
failing with a `ConfigurationError` — no such typed failure exists in the
code. -/
theorem C4_counterexample : create_chunks "a b" 2 3 = .ok [] := by decide

/-- C4 (amended): the chunker performs no parameter validation. When
`overlap = chunk_size` the call fails with the untyped step-zero
`ValueError` from `range`; when `overlap > chunk_size` it silently succeeds
with an empty chunk list; a negative `overlap` below `chunk_size` also
silently succeeds. -/
theorem C4_chunker_no_validation (text : String) (chunk_size overlap : Int) :
    (overlap = chunk_size →
      create_chunks text chunk_size overlap = .error .valueError) ∧
    (chunk_size < overlap → create_chunks text chunk_size overlap = .ok []) ∧
    (overlap < 0 → overlap < chunk_size →
      ∃ cs, create_chunks text chunk_size overlap = .ok cs) := by
  unfold create_chunks chunksFromWords pythonRange
  refine ⟨?_, ?_, ?_⟩
  · intro h
    have h0 : chunk_size - overlap = 0 := by omega
    rw [h0]
    simp
  · intro h
    have h0 : ¬(chunk_size - overlap = 0) := by omega
    have h1 : chunk_size - overlap < 0 := by omega
    simp [h0, h1]
  · intro h1 h2
    have h0 : ¬(chunk_size - overlap = 0) := by omega
    have h3 : ¬(chunk_size - overlap < 0) := by omega
    simp [h0, h3]

/-- C4 witness: at `chunk_size = overlap = 2` the chunker raises the
untyped `ValueError`. -/
theorem C4_witness : create_chunks "a b" 2 2 = .error .valueError :=
  (C4_chunker_no_validation "a b" 2 2).1 rfl

/-! ## C5 — empty extraction is rejected before any write -/

/-- C5: when the extracted text is empty or whitespace-only,
`upload_document` takes the `No text extracted` failure exit and leaves the
index (and the caller's list) untouched. -/
theorem C5_empty_text_writes_nothing (text doc_name user_id : String)
    (is_shared : Bool) (allowed_users : Option (List String))
    (embed : String → Option Emb) (uploaded_at : String)
    (idx : List ChunkRecord) (h : ∀ c ∈ text.data, c.isWhitespace = true) :
    upload_document text doc_name user_id is_shared allowed_users embed uploaded_at idx =
      { result := .noTextExtracted, index := idx, callerAllowed := allowed_users } := by
  have hfalse : hasNonWs text = false := by
    unfold hasNonWs
    rw [List.any_eq_false]
    intro c hc
    simp [h c hc]
  unfold upload_document
  rw [hfalse]
  simp

/-- C5 witness: uploading a whitespace-only document into an empty index
fails with the extraction failure and writes nothing. -/
theorem C5_witness :
    upload_document " " "d.txt" "u1" false none (fun _ => none) "t" [] =
      { result := .noTextExtracted, index := [], callerAllowed := none } :=
  C5_empty_text_writes_nothing " " "d.txt" "u1" false none (fun _ => none) "t" []
    (by decide)

/-! ## C1 — search never returns an invisible chunk -/

/-- C1: whatever the host's relevance ordering does (any permutation of the
filtered matches), every hit returned by `search` is the projection of a
stored chunk satisfying the §4.4 visibility predicate for the requesting
identity: owner, or globally shared, or on the allow-list. -/
theorem C1_search_respects_acl (rank : List ChunkRecord → List ChunkRecord)
    (hrank : ∀ l, (rank l).Perm l) (embed : String → Option Emb)
    (query : String) (top_k : Nat) (user_id : String) (idx : List ChunkRecord) :
    ∀ hit ∈ search rank embed query top_k user_id idx,
      ∃ r ∈ idx, Visible user_id r ∧
        hit = { content := r.content, document_name := r.document_name,
                owner := r.owner_user_id, is_shared := r.is_shared } := by
  intro hit hhit
  have hmem : hit ∈ (hostSearch rank idx (visFilter user_id) (some top_k)).map
      (fun r => ({ content := r.content, document_name := r.document_name,
                   owner := r.owner_user_id, is_shared := r.is_shared } : SearchHit)) := by
    unfold search at hhit
    cases hembed : embed query <;> simpa [hembed] using hhit
  rw [List.mem_map] at hmem
  obtain ⟨r, hr, rfl⟩ := hmem
  unfold hostSearch at hr
  have hr2 : r ∈ rank (idx.filter (visFilter user_id)) := List.mem_of_mem_take hr
  rw [(hrank _).mem_iff, List.mem_filter] at hr2
  refine ⟨r, hr2.1, ?_, rfl⟩
  have := hr2.2
  unfold visFilter at this
  unfold Visible
  simpa [or_assoc] using this

/-- C1 witness: a concrete search by `alice` over a one-record index she
owns, with the identity ranking and a failing query embedding. -/
theorem C1_witness :
    ∃ r ∈ [aliceChunk0], Visible "alice" r ∧
      ({ content := "c0", document_name := "d.txt", owner := "alice",
         is_shared := false } : SearchHit) =
        { content := r.content, document_name := r.document_name,
          owner := r.owner_user_id, is_shared := r.is_shared } :=
  C1_search_respects_acl id (fun l => List.Perm.refl l) (fun _ => none) "q" 3
    "alice" [aliceChunk0]
    { content := "c0", document_name := "d.txt", owner := "alice", is_shared := false }
    (by decide)

/-! ## C7 — delete by a non-owner is denied and changes nothing -/

/-- C7: a non-admin delete by a user owning no chunk of the target document
name takes the `Permission denied` exit before any deletion: the call
returns the permission failure and the index is exactly as before. -/
theorem C7_delete_by_nonowner_denied (rank : List ChunkRecord → List ChunkRecord)
    (hrank : ∀ l, (rank l).Perm l) (doc_name user_id : String)
    (idx : List ChunkRecord)
    (hown : ∀ r ∈ idx, r.document_name = doc_name → r.owner_user_id ≠ user_id) :
    delete_document rank doc_name user_id false idx = (.permissionDenied, idx) := by
  have hfilter : idx.filter
      (fun r => r.document_name == doc_name && r.owner_user_id == user_id) = [] := by
    rw [List.filter_eq_nil_iff]
    intro r hr
    simp only [Bool.and_eq_true, beq_iff_eq, not_and]
    exact fun h1 h2 => hown r hr h1 h2
  have hhost : hostSearch rank idx
      (fun r => r.document_name == doc_name && r.owner_user_id == user_id)
      (some 1) = [] := by
    unfold hostSearch
    rw [hfilter, (hrank []).eq_nil]
    rfl
  unfold delete_document
  rw [hhost]
  simp

/-- C7 witness: `bob` cannot delete alice's `d.txt`; the stored chunk
survives untouched. -/
theorem C7_witness :
    delete_document id "d.txt" "bob" false [aliceChunk0] =
      (.permissionDenied, [aliceChunk0]) :=
  C7_delete_by_nonowner_denied id (fun l => List.Perm.refl l) "d.txt" "bob"
    [aliceChunk0] (by decide)

/-! ## Concrete counterexample and code-evaluation theorems -/

/-- C3 counterexample: the input `"a b c d"` has `N = 4` whitespace-delimited
words; with `chunk_size = 3 > overlap = 2 ≥ 0` and `N > chunk_size` the
claimed count `ceil((N − overlap)/(chunk_size − overlap)) = 2`, but the code
advances the window start by `chunk_size − overlap = 1` through every index
below `N` and produces 4 chunks. -/
theorem C3_counterexample :
    create_chunks "a b c d" 3 2 = .ok ["a b c", "b c d", "c d", "d"] ∧
    (["a b c", "b c d", "c d", "d"] : List String).length ≠
      (4 - 2 + ((3 - 2) - 1)) / (3 - 2) := by decide

/-- C6 counterexample: extraction and chunking of `"a b"` succeed (one
chunk), the embedding of every chunk fails, zero chunks survive — yet the
call returns success (reporting the one generated chunk), because the code
never checks for zero survivors and an empty batch upsert is a no-op. -/
theorem C6_counterexample :
    upload_document "a b" "d.txt" "bob" false none (fun _ => none) "t" [] =
      { result := .success 1, index := [], callerAllowed := none } := by decide

/-- C9 counterexample: the index holds alice's homogeneous two-chunk
`d.txt` (private); alice re-uploads a one-chunk `d.txt` as shared. The
upsert rewrites only chunk id `d_txt_0`, leaving the stale private
`d_txt_1` behind: two chunks of the same `(document_name, owner)` now
diverge in `is_shared`, violating the invariant after a normal
`upload_document`. -/
theorem C9_counterexample :
    Homog [aliceChunk0, aliceChunk1] ∧
    ¬ Homog (upload_document "x" "d.txt" "alice" true none (fun _ => some [5])
        "t1" [aliceChunk0, aliceChunk1]).index := by decide

/-- C10 counterexample: the claim quantifies over every call, but a call
that fails the extraction check returns before the owner is appended: the
caller's list is returned unchanged and still lacks the owner. -/
theorem C10_counterexample :
    (upload_document " " "d.txt" "bob" false (some ["x"]) (fun _ => some [0])
      "t" []).callerAllowed = some ["x"] ∧ "bob" ∉ ["x"] := by decide

/-- C2 evaluation at the failing input: alice uploads `report.txt`, then bob
uploads his own `report.txt`. Both uploads derive the same chunk id
`report_txt_0` (the owner is not part of the id), so bob's upsert silently
replaces alice's chunk instead of coexisting with it. -/
theorem C2_id_collision_eval :
    (upload_document "hello world" "report.txt" "alice" false none
      (fun _ => some [1]) "t1" []).index.map (fun r => (r.id, r.owner_user_id)) =
      [("report_txt_0", "alice")] ∧
    (upload_document "hello there" "report.txt" "bob" false none
      (fun _ => some [2]) "t2"
      (upload_document "hello world" "report.txt" "alice" false none
        (fun _ => some [1]) "t1" []).index).index.map
          (fun r => (r.id, r.owner_user_id)) = [("report_txt_0", "bob")] := by decide

/-! ## The per-record effect of share_document -/

theorem shareG_id (d o : String) (t : List String) (r : ChunkRecord) :
    (shareG d o t r).id = r.id := by
  unfold shareG; split <;> rfl

theorem shareG_content (d o : String) (t : List String) (r : ChunkRecord) :
    (shareG d o t r).content = r.content := by
  unfold shareG; split <;> rfl

theorem shareG_document_name (d o : String) (t : List String) (r : ChunkRecord) :
    (shareG d o t r).document_name = r.document_name := by
  unfold shareG; split <;> rfl

theorem shareG_chunk_id (d o : String) (t : List String) (r : ChunkRecord) :
    (shareG d o t r).chunk_id = r.chunk_id := by
  unfold shareG; split <;> rfl

theorem shareG_user_id (d o : String) (t : List String) (r : ChunkRecord) :
    (shareG d o t r).user_id = r.user_id := by
  unfold shareG; split <;> rfl

theorem shareG_owner_user_id (d o : String) (t : List String) (r : ChunkRecord) :
    (shareG d o t r).owner_user_id = r.owner_user_id := by
  unfold shareG; split <;> rfl

theorem shareG_is_shared (d o : String) (t : List String) (r : ChunkRecord) :
    (shareG d o t r).is_shared = r.is_shared := by
  unfold shareG; split <;> rfl

theorem shareG_uploaded_at (d o : String) (t : List String) (r : ChunkRecord) :
    (shareG d o t r).uploaded_at = r.uploaded_at := by
  unfold shareG; split <;> rfl

theorem shareG_content_vector (d o : String) (t : List String) (r : ChunkRecord) :
    (shareG d o t r).content_vector = r.content_vector := by
  unfold shareG; split <;> rfl

theorem shareG_allowed_pos {d o : String} {r : ChunkRecord} (t : List String)
    (h : r.document_name = d ∧ r.owner_user_id = o) :
    (shareG d o t r).allowed_users = pySetUnion r.allowed_users t := by
  unfold shareG; rw [if_pos h]

theorem shareG_allowed_neg {d o : String} {r : ChunkRecord} (t : List String)
    (h : ¬(r.document_name = d ∧ r.owner_user_id = o)) :
    (shareG d o t r).allowed_users = r.allowed_users := by
  unfold shareG; rw [if_neg h]

theorem mem_pySetUnion {x : String} {cur tgt : List String} :
    x ∈ pySetUnion cur tgt ↔ x ∈ cur ∨ x ∈ tgt := by
  unfold pySetUnion
  rw [List.mem_dedup, List.mem_append]

/-- Central lemma: for any host ranking permutation and an id-keyed
(duplicate-free) index, one `share_document` call maps every stored record
through `shareG` — matching records get the deduplicated union, all other
records are untouched — regardless of whether any record matched. -/
theorem share_document_snd_eq (rank : List ChunkRecord → List ChunkRecord)
    (hrank : ∀ l, (rank l).Perm l) (doc_name owner_user_id : String)
    (targets : List String) (idx : List ChunkRecord)
    (hids : (idx.map (fun r => r.id)).Nodup) :
    (share_document rank doc_name owner_user_id targets idx).2 =
      idx.map (shareG doc_name owner_user_id targets) := by
  have hinj : ∀ r ∈ idx, ∀ s ∈ idx, r.id = s.id → r = s :=
    fun r hr s hs h => List.inj_on_of_nodup_map hids hr hs h
  have hperm := hrank (idx.filter
    (fun r => r.document_name == doc_name && r.owner_user_id == owner_user_id))
  by_cases hmatch : idx.filter
      (fun r => r.document_name == doc_name && r.owner_user_id == owner_user_id) = []
  · have hrnil : rank (idx.filter
        (fun r => r.document_name == doc_name && r.owner_user_id == owner_user_id)) = [] := by
      have h2 := hperm
      nth_rewrite 2 [hmatch] at h2
      exact h2.eq_nil
    have hnomatch : ∀ r ∈ idx,
        ¬(r.document_name = doc_name ∧ r.owner_user_id = owner_user_id) := by
      rw [List.filter_eq_nil_iff] at hmatch
      intro r hr
      have := hmatch r hr
      simpa using this
    have hmapid : idx.map (shareG doc_name owner_user_id targets) = idx := by
      have hcongr : ∀ r ∈ idx, shareG doc_name owner_user_id targets r = id r := by
        intro r hr
        unfold shareG
        rw [if_neg (hnomatch r hr)]
        rfl
      rw [List.map_congr_left hcongr, List.map_id]
    unfold share_document hostSearch
    rw [hrnil]
    simp [hmapid]
  · have hrne : rank (idx.filter
        (fun r => r.document_name == doc_name && r.owner_user_id == owner_user_id)) ≠ [] := by
      intro h
      rw [h] at hperm
      exact hmatch hperm.symm.eq_nil
    unfold share_document hostSearch merge_documents
    simp only [List.isEmpty_eq_true, List.map_eq_nil_iff]
    rw [if_neg hrne]
    apply List.map_congr_left
    intro r hr
    by_cases hpr : r.document_name = doc_name ∧ r.owner_user_id = owner_user_id
    · have hrmem : r ∈ rank (idx.filter
          (fun s => s.document_name == doc_name && s.owner_user_id == owner_user_id)) := by
        rw [hperm.mem_iff, List.mem_filter]
        exact ⟨hr, by simp [hpr.1, hpr.2]⟩
      have hentry : (r.id, pySetUnion r.allowed_users targets) ∈
          (rank (idx.filter
            (fun s => s.document_name == doc_name && s.owner_user_id == owner_user_id))).map
            (fun s => (s.id, pySetUnion s.allowed_users targets)) :=
        List.mem_map_of_mem _ hrmem
      have hsome : (((rank (idx.filter
          (fun s => s.document_name == doc_name && s.owner_user_id == owner_user_id))).map
            (fun s => (s.id, pySetUnion s.allowed_users targets))).find?
              (fun u => u.1 == r.id)).isSome :=
        List.find?_isSome.2 ⟨_, hentry, by simp⟩
      obtain ⟨u, hu⟩ := Option.isSome_iff_exists.1 hsome
      have hu_mem := List.mem_of_find?_eq_some hu
      have hu_pred : u.1 = r.id := by
        have := List.find?_some hu
        simpa using this
      obtain ⟨r', hr', hueq⟩ := List.mem_map.1 hu_mem
      have hr'idx : r' ∈ idx := (List.mem_filter.1 (hperm.mem_iff.1 hr')).1
      have hr'r : r' = r := by
        apply hinj r' hr'idx r hr
        rw [← hueq] at hu_pred
        exact hu_pred
      subst hr'r
      rw [hu, ← hueq]
      unfold shareG
      rw [if_pos hpr]
    · have hnone : (((rank (idx.filter
          (fun s => s.document_name == doc_name && s.owner_user_id == owner_user_id))).map
            (fun s => (s.id, pySetUnion s.allowed_users targets))).find?
              (fun u => u.1 == r.id)) = none := by
        rw [List.find?_eq_none]
        intro u hu hpred
        obtain ⟨r', hr', rfl⟩ := List.mem_map.1 hu
        have hr'f := hperm.mem_iff.1 hr'
        rw [List.mem_filter] at hr'f
        have hpr' : r'.document_name = doc_name ∧ r'.owner_user_id = owner_user_id := by
          have := hr'f.2
          simpa using this
        have : r' = r := hinj r' hr'f.1 r hr (by simpa using hpred)
        exact hpr (this ▸ hpr')
      rw [hnone]
      unfold shareG
      rw [if_neg hpr]

/-- `shareG` never changes a record's id, so sharing preserves the
id-keyed-ness of the index. -/
theorem shareG_preserves_ids (d o : String) (t : List String)
    (idx : List ChunkRecord) (hids : (idx.map (fun r => r.id)).Nodup) :
    ((idx.map (shareG d o t)).map (fun r => r.id)).Nodup := by
  rw [List.map_map]
  have hfun : ((fun r : ChunkRecord => r.id) ∘ shareG d o t) = fun r => r.id := by
    funext r
    exact shareG_id d o t r
  rw [hfun]
  exact hids

/-! ## C8 — share is a set union on allowed_users and idempotent -/

/-- C8: one `share_document` call relates pre- and post-state records
pairwise by `shareRel` (every field except `allowed_users` untouched;
matching records get the set union of their allow-list with the targets,
other records keep theirs verbatim), and a second identical call is a
set-level no-op (`shareIdemRel`). Holds for any host ranking permutation
over an id-keyed index. -/
theorem C8_share_union_idempotent (rank : List ChunkRecord → List ChunkRecord)
    (hrank : ∀ l, (rank l).Perm l) (doc_name owner_user_id : String)
    (targets : List String) (idx : List ChunkRecord)
    (hids : (idx.map (fun r => r.id)).Nodup) :
    List.Forall₂ (shareRel doc_name owner_user_id targets) idx
      (share_document rank doc_name owner_user_id targets idx).2 ∧
    List.Forall₂ shareIdemRel
      (share_document rank doc_name owner_user_id targets idx).2
      (share_document rank doc_name owner_user_id targets
        (share_document rank doc_name owner_user_id targets idx).2).2 := by
  have h1 := share_document_snd_eq rank hrank doc_name owner_user_id targets idx hids
  have hids2 : (((share_document rank doc_name owner_user_id targets idx).2).map
      (fun r => r.id)).Nodup := by
    rw [h1]
    exact shareG_preserves_ids doc_name owner_user_id targets idx hids
  have h2 := share_document_snd_eq rank hrank doc_name owner_user_id targets _ hids2
  constructor
  · rw [h1, List.forall₂_map_right_iff, List.forall₂_same]
    intro r hr
    unfold shareRel
    refine ⟨shareG_id _ _ _ r, shareG_content _ _ _ r, shareG_document_name _ _ _ r,
      shareG_chunk_id _ _ _ r, shareG_user_id _ _ _ r, shareG_owner_user_id _ _ _ r,
      shareG_is_shared _ _ _ r, shareG_uploaded_at _ _ _ r,
      shareG_content_vector _ _ _ r, ?_⟩
    by_cases hpr : r.document_name = doc_name ∧ r.owner_user_id = owner_user_id
    · rw [if_pos hpr, shareG_allowed_pos targets hpr]
      constructor
      · intro x hx
        rw [List.mem_append]
        exact mem_pySetUnion.1 hx
      · intro x hx
        rw [List.mem_append] at hx
        exact mem_pySetUnion.2 hx
    · rw [if_neg hpr]
      exact shareG_allowed_neg targets hpr
  · rw [h2, h1, List.forall₂_map_right_iff, List.forall₂_same]
    intro r hr
    obtain ⟨r0, hr0, rfl⟩ := List.mem_map.1 hr
    unfold shareIdemRel
    refine ⟨shareG_id _ _ _ _, shareG_content _ _ _ _, shareG_document_name _ _ _ _,
      shareG_chunk_id _ _ _ _, shareG_user_id _ _ _ _, shareG_owner_user_id _ _ _ _,
      shareG_is_shared _ _ _ _, shareG_uploaded_at _ _ _ _,
      shareG_content_vector _ _ _ _, ?_⟩
    by_cases hpr : r0.document_name = doc_name ∧ r0.owner_user_id = owner_user_id
    · have hpr2 : (shareG doc_name owner_user_id targets r0).document_name = doc_name ∧
          (shareG doc_name owner_user_id targets r0).owner_user_id = owner_user_id := by
        rw [shareG_document_name, shareG_owner_user_id]
        exact hpr
      rw [shareG_allowed_pos targets hpr2, shareG_allowed_pos targets hpr]
      constructor
      · intro x hx
        rcases mem_pySetUnion.1 hx with h | h
        · exact h
        · exact mem_pySetUnion.2 (Or.inr h)
      · intro x hx
        exact mem_pySetUnion.2 (Or.inl hx)
    · have hpr2 : ¬((shareG doc_name owner_user_id targets r0).document_name = doc_name ∧
          (shareG doc_name owner_user_id targets r0).owner_user_id = owner_user_id) := by
        rw [shareG_document_name, shareG_owner_user_id]
        exact hpr
      rw [shareG_allowed_neg targets hpr2]
      exact ⟨fun x hx => hx, fun x hx => hx⟩

/-- C8 witness: sharing alice's two-chunk `d.txt` with `bob` once and
twice, with the identity ranking. -/
theorem C8_witness :
    List.Forall₂ (shareRel "d.txt" "alice" ["bob"]) [aliceChunk0, aliceChunk1]
      (share_document id "d.txt" "alice" ["bob"] [aliceChunk0, aliceChunk1]).2 ∧
    List.Forall₂ shareIdemRel
      (share_document id "d.txt" "alice" ["bob"] [aliceChunk0, aliceChunk1]).2
      (share_document id "d.txt" "alice" ["bob"]
        (share_document id "d.txt" "alice" ["bob"] [aliceChunk0, aliceChunk1]).2).2 :=
  C8_share_union_idempotent id (fun l => List.Perm.refl l) "d.txt" "alice" ["bob"]
    [aliceChunk0, aliceChunk1] (by decide)

/-! ## C9 — homogeneity of (document_name, owner) groups -/

/-- Every record built by the indexing loop carries the upload's document
name, owner, share flag and allow-list, and a chunk index at or above the
loop counter. -/
theorem buildDocs_mem (safe doc_name user_id : String) (is_shared : Bool)
    (allowed : List String) (uploaded_at : String) (embed : String → Option Emb) :
    ∀ (cs : List String) (i : Nat),
      ∀ r ∈ buildDocs safe doc_name user_id is_shared allowed uploaded_at embed i cs,
        r.document_name = doc_name ∧ r.owner_user_id = user_id ∧
        r.is_shared = is_shared ∧ r.allowed_users = allowed ∧ i ≤ r.chunk_id := by
  intro cs
  induction cs with
  | nil =>
    intro i r hr
    unfold buildDocs at hr
    cases hr
  | cons ch rest ih =>
    intro i r hr
    unfold buildDocs at hr
    cases hemb : embed ch with
    | none =>
      rw [hemb] at hr
      have := ih (i + 1) r hr
      exact ⟨this.1, this.2.1, this.2.2.1, this.2.2.2.1, by omega⟩
    | some v =>
      rw [hemb] at hr
      rcases List.mem_cons.1 hr with h | h
      · subst h
        exact ⟨rfl, rfl, rfl, rfl, Nat.le_refl _⟩
      · have := ih (i + 1) r h
        exact ⟨this.1, this.2.1, this.2.2.1, this.2.2.2.1, by omega⟩

/-- C9 (amended): `share_document` always preserves the §3 homogeneity
invariant (any ranking permutation, id-keyed index); `upload_document`
preserves it whenever the index holds no prior chunk of the uploaded
`(document_name, owner)` pair. (The counterexample shows a same-owner
re-upload that leaves stale siblings can violate it.) -/
theorem C9_homogeneity_amended :
    (∀ (rank : List ChunkRecord → List ChunkRecord),
      (∀ l, (rank l).Perm l) → ∀ (doc_name owner_user_id : String)
      (targets : List String) (idx : List ChunkRecord),
      (idx.map (fun r => r.id)).Nodup → Homog idx →
      Homog (share_document rank doc_name owner_user_id targets idx).2) ∧
    (∀ (text doc_name user_id : String) (is_shared : Bool)
      (allowed_users : Option (List String)) (embed : String → Option Emb)
      (uploaded_at : String) (idx : List ChunkRecord),
      Homog idx →
      (∀ r ∈ idx, ¬(r.document_name = doc_name ∧ r.owner_user_id = user_id)) →
      Homog (upload_document text doc_name user_id is_shared allowed_users embed
        uploaded_at idx).index) := by
  constructor
  · intro rank hrank doc_name owner_user_id targets idx hids hhom
    rw [share_document_snd_eq rank hrank doc_name owner_user_id targets idx hids]
    intro r' hr' s' hs' hname howner
    obtain ⟨r, hr, rfl⟩ := List.mem_map.1 hr'
    obtain ⟨s, hs, rfl⟩ := List.mem_map.1 hs'
    rw [shareG_document_name, shareG_document_name] at hname
    rw [shareG_owner_user_id, shareG_owner_user_id] at howner
    have hbase := hhom r hr s hs hname howner
    constructor
    · rw [shareG_is_shared, shareG_is_shared]
      exact hbase.1
    · by_cases hpr : r.document_name = doc_name ∧ r.owner_user_id = owner_user_id
      · have hps : s.document_name = doc_name ∧ s.owner_user_id = owner_user_id :=
          ⟨hname ▸ hpr.1, howner ▸ hpr.2⟩
        rw [shareG_allowed_pos targets hpr, shareG_allowed_pos targets hps]
        constructor
        · intro x hx
          rcases mem_pySetUnion.1 hx with h | h
          · exact mem_pySetUnion.2 (Or.inl (hbase.2.1 h))
          · exact mem_pySetUnion.2 (Or.inr h)
        · intro x hx
          rcases mem_pySetUnion.1 hx with h | h
          · exact mem_pySetUnion.2 (Or.inl (hbase.2.2 h))
          · exact mem_pySetUnion.2 (Or.inr h)
      · have hps : ¬(s.document_name = doc_name ∧ s.owner_user_id = owner_user_id) := by
          intro h
          exact hpr ⟨hname ▸ h.1, howner ▸ h.2⟩
        rw [shareG_allowed_neg targets hpr, shareG_allowed_neg targets hps]
        exact hbase.2
  · intro text doc_name user_id is_shared allowed_users embed uploaded_at idx hhom hfresh
    unfold upload_document
    by_cases htext : hasNonWs text
    · rw [htext]
      simp only [Bool.not_true]
      cases hch : create_chunks text with
      | error e => exact hhom
      | ok chunks =>
        simp only []
        unfold upload_documents
        intro r hr s hs hname howner
        have hmem : ∀ x : ChunkRecord,
            x ∈ (idx.filter (fun q => !((buildDocs (sanitizeDocName doc_name) doc_name
              user_id is_shared
              (if user_id ∈ allowed_users.getD [] then allowed_users.getD []
               else allowed_users.getD [] ++ [user_id]) uploaded_at embed 0 chunks).any
                (fun d => d.id == q.id))) ++
              buildDocs (sanitizeDocName doc_name) doc_name user_id is_shared
                (if user_id ∈ allowed_users.getD [] then allowed_users.getD []
                 else allowed_users.getD [] ++ [user_id]) uploaded_at embed 0 chunks) →
            x ∈ idx ∨ (x.document_name = doc_name ∧ x.owner_user_id = user_id ∧
              x.is_shared = is_shared ∧ x.allowed_users =
                (if user_id ∈ allowed_users.getD [] then allowed_users.getD []
                 else allowed_users.getD [] ++ [user_id])) := by
          intro x hx
          rcases List.mem_append.1 hx with h | h
          · exact Or.inl (List.mem_filter.1 h).1
          · have := buildDocs_mem _ _ _ _ _ _ _ chunks 0 x h
            exact Or.inr ⟨this.1, this.2.1, this.2.2.1, this.2.2.2.1⟩
        rcases hmem r hr with hri | hrn
        · rcases hmem s hs with hsi | hsn
          · exact hhom r hri s hsi hname howner
          · exact absurd ⟨hname ▸ hsn.1, howner ▸ hsn.2.1⟩ (hfresh r hri)
        · rcases hmem s hs with hsi | hsn
          · refine absurd ⟨?_, ?_⟩ (hfresh s hsi)
            · exact hname ▸ hrn.1
            · exact howner ▸ hrn.2.1
          · constructor
            · rw [hrn.2.2.1, hsn.2.2.1]
            · rw [hrn.2.2.2, hsn.2.2.2]
              exact ⟨fun x hx => hx, fun x hx => hx⟩
    · rw [eq_false_of_ne_true htext]
      exact hhom

/-- C9 witness: a share on alice's homogeneous index and carol's first
upload of a fresh document name both preserve homogeneity. -/
theorem C9_witness :
    Homog (share_document id "d.txt" "alice" ["bob"] [aliceChunk0, aliceChunk1]).2 ∧
    Homog (upload_document "y z" "e.txt" "carol" true none (fun _ => some [3]) "t2"
      [aliceChunk0, aliceChunk1]).index :=
  ⟨C9_homogeneity_amended.1 id (fun l => List.Perm.refl l) "d.txt" "alice" ["bob"]
      [aliceChunk0, aliceChunk1] (by decide) (by decide),
    C9_homogeneity_amended.2 "y z" "e.txt" "carol" true none (fun _ => some [3]) "t2"
      [aliceChunk0, aliceChunk1] (by decide) (by decide)⟩

/-! ## Upload internals used by C6 and C10 -/

/-- With the default parameters (`chunk_size = 1000`, `overlap = 200`, step
800) the chunker never raises. -/
theorem create_chunks_default_ok (text : String) :
    ∃ cs, create_chunks text = .ok cs := by
  unfold create_chunks chunksFromWords pythonRange
  norm_num

/-- Position-indexed characterization of the indexing loop: the loop emits a
record with chunk index `i + j` exactly when the embedding of the `j`-th
remaining chunk succeeds — one chunk's embedding failure never affects its
siblings. -/
theorem buildDocs_chunk_iff (safe doc_name user_id : String) (is_shared : Bool)
    (allowed : List String) (uploaded_at : String) (embed : String → Option Emb) :
    ∀ (cs : List String) (i j : Nat) (ch : String), cs[j]? = some ch →
      ((∃ r ∈ buildDocs safe doc_name user_id is_shared allowed uploaded_at embed i cs,
          r.chunk_id = i + j) ↔ (embed ch).isSome = true) := by
  intro cs
  induction cs with
  | nil =>
    intro i j ch h
    simp at h
  | cons c rest ih =>
    intro i j ch h
    cases j with
    | zero =>
      have hc : c = ch := by simpa using h
      subst hc
      unfold buildDocs
      cases hemb : embed c with
      | none =>
        simp only [hemb, Option.isSome_none]
        constructor
        · rintro ⟨r, hr, hrid⟩
          have hlow := (buildDocs_mem safe doc_name user_id is_shared allowed
            uploaded_at embed rest (i + 1) r hr).2.2.2.2
          omega
        · intro h'
          cases h'
      | some v =>
        simp only [hemb, Option.isSome_some]
        constructor
        · intro _
          trivial
        · intro _
          exact ⟨_, List.mem_cons_self _ _, by simp⟩
    | succ j' =>
      have h2 : rest[j']? = some ch := by simpa using h
      have harith : i + (j' + 1) = (i + 1) + j' := by omega
      unfold buildDocs
      cases hemb : embed c with
      | none =>
        rw [harith]
        exact ih (i + 1) j' ch h2
      | some v =>
        rw [harith]
        constructor
        · rintro ⟨r, hr, hrid⟩
          rcases List.mem_cons.1 hr with rfl | hr2
          · dsimp only at hrid
            omega
          · exact (ih (i + 1) j' ch h2).1 ⟨r, hr2, hrid⟩
        · intro hs
          obtain ⟨r, hr, hrid⟩ := (ih (i + 1) j' ch h2).2 hs
          exact ⟨r, List.mem_cons_of_mem _ hr, hrid⟩

/-! ## C6 — absorption of per-chunk embedding failures, success reporting -/

/-- C6 (amended): whenever extraction yields non-blank text,
`upload_document` returns success reporting the number of *generated*
chunks, no matter how many survive embedding — zero survivors included; and
per-chunk embedding failures are absorbed without aborting siblings: over
an index holding no chunk of this `(document_name, owner)` pair, the `j`-th
generated chunk ends up indexed (as a record of this pair with
`chunk_id = j`) exactly when its own embedding succeeded. -/
theorem C6_upload_amended (text doc_name user_id : String) (is_shared : Bool)
    (allowed_users : Option (List String)) (embed : String → Option Emb)
    (uploaded_at : String) (idx : List ChunkRecord)
    (htext : hasNonWs text = true)
    (hfresh : ∀ r ∈ idx, ¬(r.document_name = doc_name ∧ r.owner_user_id = user_id)) :
    ∃ cs, create_chunks text = .ok cs ∧
      (upload_document text doc_name user_id is_shared allowed_users embed
        uploaded_at idx).result = .success cs.length ∧
      ∀ j ch, cs[j]? = some ch →
        ((∃ r ∈ (upload_document text doc_name user_id is_shared allowed_users embed
            uploaded_at idx).index,
            r.document_name = doc_name ∧ r.owner_user_id = user_id ∧ r.chunk_id = j) ↔
          (embed ch).isSome = true) := by
  obtain ⟨cs, hcs⟩ := create_chunks_default_ok text
  refine ⟨cs, hcs, ?_, ?_⟩
  · unfold upload_document
    rw [htext, hcs]
    rfl
  · intro j ch hj
    unfold upload_document
    rw [htext, hcs]
    simp only [Bool.not_true, Bool.false_eq_true, if_false]
    unfold upload_documents
    constructor
    · rintro ⟨r, hr, hname, howner, hcid⟩
      rcases List.mem_append.1 hr with h | h
      · exact absurd ⟨hname, howner⟩ (hfresh r (List.mem_filter.1 h).1)
      · refine (buildDocs_chunk_iff _ _ _ _ _ _ _ cs 0 j ch hj).1 ⟨r, h, ?_⟩
        omega
    · intro hs
      obtain ⟨r, hr, hrid⟩ := (buildDocs_chunk_iff (sanitizeDocName doc_name) doc_name
        user_id is_shared
        (if user_id ∈ allowed_users.getD [] then allowed_users.getD []
         else allowed_users.getD [] ++ [user_id]) uploaded_at embed cs 0 j ch hj).2 hs
      have hfields := buildDocs_mem _ _ _ _ _ _ _ cs 0 r hr
      exact ⟨r, List.mem_append.2 (Or.inr hr), hfields.1, hfields.2.1, by omega⟩

/-- C6 witness: a two-word upload (one generated chunk) whose embedding
succeeds, into an empty index. -/
theorem C6_witness :
    ∃ cs, create_chunks "a b" = .ok cs ∧
      (upload_document "a b" "f.txt" "u1" false none (fun _ => some [7])
        "t" []).result = .success cs.length ∧
      ∀ j ch, cs[j]? = some ch →
        ((∃ r ∈ (upload_document "a b" "f.txt" "u1" false none (fun _ => some [7])
            "t" []).index,
            r.document_name = "f.txt" ∧ r.owner_user_id = "u1" ∧ r.chunk_id = j) ↔
          ((fun _ : String => some ([7] : Emb)) ch).isSome = true) :=
  C6_upload_amended "a b" "f.txt" "u1" false none (fun _ => some [7]) "t" []
    (by decide) (by decide)

/-! ## C10 — owner appended to the caller's allowed_users list in place -/

/-- C10 (amended): a call that passes the extraction check, given a caller
list lacking the owner, leaves the caller's list object equal to the
original followed by the owner (Python appends in place), and every newly
indexed record's allow-list contains the owner. -/
theorem C10_upload_mutates_caller_list (text doc_name user_id : String)
    (is_shared : Bool) (al : List String) (embed : String → Option Emb)
    (uploaded_at : String) (idx : List ChunkRecord)
    (htext : hasNonWs text = true) (hal : user_id ∉ al) :
    (upload_document text doc_name user_id is_shared (some al) embed uploaded_at
      idx).callerAllowed = some (al ++ [user_id]) ∧
    ∀ r ∈ (upload_document text doc_name user_id is_shared (some al) embed
        uploaded_at idx).index, r ∉ idx → user_id ∈ r.allowed_users := by
  obtain ⟨cs, hcs⟩ := create_chunks_default_ok text
  unfold upload_document
  rw [htext, hcs]
  simp only [Bool.not_true, Bool.false_eq_true, if_false, Option.getD_some,
    Option.map_some']
  rw [if_neg hal]
  refine ⟨rfl, ?_⟩
  intro r hr hnotidx
  unfold upload_documents at hr
  rcases List.mem_append.1 hr with h | h
  · exact absurd (List.mem_filter.1 h).1 hnotidx
  · have := buildDocs_mem _ _ _ _ _ _ _ cs 0 r h
    rw [this.2.2.2.1]
    exact List.mem_append.2 (Or.inr (List.mem_singleton.2 rfl))

/-- C10 witness: uploading `"a"` with caller list `["x"]` and owner `bob`
leaves the caller's list as `["x", "bob"]`. -/
theorem C10_witness :
    (upload_document "a" "d.txt" "bob" false (some ["x"]) (fun _ => some [1])
      "t" []).callerAllowed = some (["x"] ++ ["bob"]) ∧
    ∀ r ∈ (upload_document "a" "d.txt" "bob" false (some ["x"]) (fun _ => some [1])
        "t" []).index, r ∉ ([] : List ChunkRecord) → "bob" ∈ r.allowed_users :=
  C10_upload_mutates_caller_list "a" "d.txt" "bob" false ["x"] (fun _ => some [1])
    "t" [] (by decide) (by decide)

/-! ## C3 — chunk count, window coverage and reconstruction -/

/-- A Python slice `l[a : a + c]` with natural bounds is drop-then-take. -/
theorem pySlice_eq_drop_take {α : Type} (l : List α) (a c : Nat) :
    pySlice l (a : Int) ((a : Int) + (c : Int)) = (l.drop a).take c := by
  unfold pySlice
  have hna : ¬((a : Int) < 0) := by omega
  have hnb : ¬((a : Int) + (c : Int) < 0) := by omega
  simp only []
  rw [if_neg hna, if_neg hnb]
  have h1 : (min (a : Int) (l.length : Int)).toNat = min a l.length := by
    rw [← Nat.cast_min]
    exact Int.toNat_ofNat _
  have h2 : (min ((a : Int) + (c : Int)) (l.length : Int)).toNat =
      min (a + c) l.length := by
    rw [← Nat.cast_add, ← Nat.cast_min]
    exact Int.toNat_ofNat _
  rw [h1, h2]
  by_cases hle : a ≤ l.length
  · have hm1 : min a l.length = a := Nat.min_eq_left hle
    by_cases hle2 : a + c ≤ l.length
    · have hm2 : min (a + c) l.length = a + c := Nat.min_eq_left hle2
      rw [hm1, hm2, Nat.add_sub_cancel_left]
    · have hm2 : min (a + c) l.length = l.length := Nat.min_eq_right (by omega)
      rw [hm1, hm2]
      have e1 : (l.drop a).take (l.length - a) = l.drop a :=
        List.take_of_length_le (by rw [List.length_drop])
      have e2 : (l.drop a).take c = l.drop a :=
        List.take_of_length_le (by rw [List.length_drop]; omega)
      rw [e1, e2]
  · have hm1 : min a l.length = l.length := Nat.min_eq_right (by omega)
    have hm2 : min (a + c) l.length = l.length := Nat.min_eq_right (by omega)
    rw [hm1, hm2, Nat.sub_self]
    rw [List.drop_eq_nil_of_le (show l.length ≤ a by omega)]
    simp

/-- Python `range(0, n, s)` for a positive step `s` is the arithmetic
progression of `ceil(n / s)` starts. -/
theorem pythonRange_pos (n s : Nat) (hs : 0 < s) :
    pythonRange n (s : Int) = .ok (List.range' 0 ((n + s - 1) / s) s) := by
  unfold pythonRange
  have h1 : ¬((s : Int) = 0) := by omega
  have h2 : ¬((s : Int) < 0) := by omega
  rw [if_neg h1, if_neg h2, Int.toNat_ofNat]

/-- Splitting a list into `k` consecutive blocks of `s` recovers it, as
soon as the blocks cover its length. -/
theorem blocksJoin {α : Type} (s : Nat) :
    ∀ (k : Nat) (l : List α), l.length ≤ k * s →
      ((List.range k).map (fun j => (l.drop (j * s)).take s)).flatten = l := by
  intro k
  induction k with
  | zero =>
    intro l hl
    rw [Nat.zero_mul] at hl
    have hnil : l = [] := List.eq_nil_of_length_eq_zero (by omega)
    subst hnil
    rfl
  | succ k ih =>
    intro l hl
    rw [List.range_succ_eq_map, List.map_cons, List.flatten_cons, List.map_map]
    have hcomp : ((fun j => (l.drop (j * s)).take s) ∘ Nat.succ) =
        fun j => (((l.drop s).drop (j * s)).take s) := by
      funext j
      simp only [Function.comp]
      rw [List.drop_drop]
      have harith : Nat.succ j * s = s + j * s := by
        rw [Nat.succ_mul]
        omega
      rw [harith]
    rw [hcomp, Nat.zero_mul, List.drop_zero]
    rw [Nat.succ_mul] at hl
    rw [ih (l.drop s) (by rw [List.length_drop]; omega)]
    exact List.take_append_drop s l

/-- Word-level specification of the loop of `_create_chunks`: for
`chunk_size > overlap ≥ 0` over solid words with more words than
`chunk_size`, the chunker succeeds with exactly
`ceil(N / (chunk_size − overlap))` chunks; chunk `k` is the join of the
word window starting at `k · (chunk_size − overlap)`; and dropping the
first `overlap` words of every chunk after the first reconstructs the
original word sequence. -/
theorem chunksFromWords_spec (words : List String)
    (hsolid : ∀ w ∈ words, w.data ≠ [] ∧ ∀ ch ∈ w.data, ch.isWhitespace = false)
    (c o : Nat) (ho : o < c) (hn : c < words.length) :
    ∃ cs, chunksFromWords words (c : Int) (o : Int) = .ok cs ∧
      cs.length = (words.length + (c - o) - 1) / (c - o) ∧
      (∀ k, (hk : k < cs.length) →
        cs.get ⟨k, hk⟩ = joinWords ((words.drop (k * (c - o))).take c)) ∧
      words.take c ++
        ((List.range (cs.length - 1)).map
          (fun j => ((words.drop ((j + 1) * (c - o))).take c).drop o)).flatten
        = words := by
  have hs : 0 < c - o := by omega
  have hcast : (c : Int) - (o : Int) = ((c - o : Nat) : Int) :=
    (Int.ofNat_sub (le_of_lt ho)).symm
  have hrange := pythonRange_pos words.length (c - o) hs
  have hmod := Nat.div_add_mod (words.length + (c - o) - 1) (c - o)
  have hmlt := Nat.mod_lt (words.length + (c - o) - 1) hs
  have hcov : words.length ≤
      (c - o) * ((words.length + (c - o) - 1) / (c - o)) := by omega
  have hstart : ∀ i ∈ List.range' 0 ((words.length + (c - o) - 1) / (c - o)) (c - o),
      i < words.length := by
    intro i hi
    rw [List.mem_range'] at hi
    obtain ⟨k, hk, rfl⟩ := hi
    have h1 : (c - o) * (k + 1) ≤
        (c - o) * ((words.length + (c - o) - 1) / (c - o)) :=
      Nat.mul_le_mul_left _ hk
    have h4 : (c - o) * (k + 1) = (c - o) * k + (c - o) := by ring
    omega
  have hmapcongr : (List.range' 0 ((words.length + (c - o) - 1) / (c - o)) (c - o)).map
        (fun (i : Nat) => joinWords (pySlice words (i : Int) ((i : Int) + (c : Int)))) =
      (List.range' 0 ((words.length + (c - o) - 1) / (c - o)) (c - o)).map
        (fun i => joinWords ((words.drop i).take c)) :=
    List.map_congr_left (fun i _ => by rw [pySlice_eq_drop_take])
  have hkeep : ∀ x ∈ (List.range' 0 ((words.length + (c - o) - 1) / (c - o)) (c - o)).map
      (fun i => joinWords ((words.drop i).take c)), hasNonWs x = true := by
    intro x hx
    rw [List.mem_map] at hx
    obtain ⟨i, hi, rfl⟩ := hx
    have hilt := hstart i hi
    have hne : (words.drop i).take c ≠ [] := by
      intro hnil
      have hlen : ((words.drop i).take c).length = 0 := by rw [hnil]; rfl
      rw [List.length_take, List.length_drop] at hlen
      omega
    obtain ⟨w, hwmem⟩ := List.exists_mem_of_ne_nil _ hne
    have hword : w ∈ words := List.mem_of_mem_drop (List.mem_of_mem_take hwmem)
    obtain ⟨hdata, hws⟩ := hsolid w hword
    obtain ⟨chr, hchr⟩ := List.exists_mem_of_ne_nil _ hdata
    exact hasNonWs_joinWords hwmem hchr (hws chr hchr)
  have hpayload : (((List.range' 0 ((words.length + (c - o) - 1) / (c - o)) (c - o)).map
        (fun (i : Nat) => joinWords (pySlice words (i : Int) ((i : Int) + (c : Int))))).filter
          hasNonWs) =
      (List.range' 0 ((words.length + (c - o) - 1) / (c - o)) (c - o)).map
        (fun i => joinWords ((words.drop i).take c)) := by
    rw [hmapcongr]
    exact List.filter_eq_self.mpr hkeep
  have hval : chunksFromWords words (c : Int) (o : Int) =
      .ok ((List.range' 0 ((words.length + (c - o) - 1) / (c - o)) (c - o)).map
        (fun i => joinWords ((words.drop i).take c))) := by
    unfold chunksFromWords
    rw [hcast, hrange]
    exact congrArg Except.ok hpayload
  rw [hval]
  refine ⟨_, rfl, ?_, ?_, ?_⟩
  · rw [List.length_map, List.length_range']
  · intro k hk
    have hk2 : k < ((words.length + (c - o) - 1) / (c - o)) := by
      rw [List.length_map, List.length_range'] at hk
      exact hk
    rw [List.get_eq_getElem, List.getElem_map, List.getElem_range']
    have harith : 0 + (c - o) * k = k * (c - o) := by ring
    rw [harith]
  · rw [List.length_map, List.length_range']
    have hblock : ∀ j ∈ List.range (((words.length + (c - o) - 1) / (c - o)) - 1),
        ((words.drop ((j + 1) * (c - o))).take c).drop o =
          (((words.drop c).drop (j * (c - o))).take (c - o)) := by
      intro j _
      have h1 : ((words.drop ((j + 1) * (c - o))).take c).drop o =
          ((words.drop ((j + 1) * (c - o))).drop o).take (c - o) := by
        have h0 := (List.take_drop o (c - o) (words.drop ((j + 1) * (c - o)))).symm
        rw [show o + (c - o) = c by omega] at h0
        exact h0
      have h2 : (words.drop ((j + 1) * (c - o))).drop o =
          (words.drop c).drop (j * (c - o)) := by
        rw [List.drop_drop, List.drop_drop]
        have harith2 : (j + 1) * (c - o) + o = c + j * (c - o) := by
          rw [Nat.succ_mul]
          omega
        rw [harith2]
      rw [h1, h2]
    rw [List.map_congr_left hblock]
    have hcnt1 : 1 ≤ (words.length + (c - o) - 1) / (c - o) :=
      Nat.div_pos (by omega) hs
    have h7 : ((words.length + (c - o) - 1) / (c - o)) - 1 + 1 =
        (words.length + (c - o) - 1) / (c - o) := by omega
    have h8 := Nat.succ_mul (((words.length + (c - o) - 1) / (c - o)) - 1) (c - o)
    rw [Nat.succ_eq_add_one, h7] at h8
    have h5 : ((words.length + (c - o) - 1) / (c - o)) * (c - o) =
        (c - o) * ((words.length + (c - o) - 1) / (c - o)) := Nat.mul_comm _ _
    rw [blocksJoin (c - o) (((words.length + (c - o) - 1) / (c - o)) - 1)
      (words.drop c) (by rw [List.length_drop]; omega)]
    exact List.take_append_drop c words

/-- C3 (amended): for every `chunk_size > overlap ≥ 0` and every input
whose whitespace-split word list has `N > chunk_size` words,
`_create_chunks` produces exactly `ceil(N / (chunk_size − overlap))` chunks
(the spec's `ceil((N − overlap)/(chunk_size − overlap))` under-counts when
trailing windows start inside the final overlap); chunk `k` joins the word
window `[k·step, k·step + chunk_size)`; and concatenating the chunks with
the first `overlap` words of every chunk after the first removed
reconstructs the original word sequence in order. -/
theorem C3_chunker_amended (text : String) (c o : Nat) (ho : o < c)
    (hn : c < (pySplit text).length) :
    ∃ cs, create_chunks text (c : Int) (o : Int) = .ok cs ∧
      cs.length = ((pySplit text).length + (c - o) - 1) / (c - o) ∧
      (∀ k, (hk : k < cs.length) →
        cs.get ⟨k, hk⟩ = joinWords (((pySplit text).drop (k * (c - o))).take c)) ∧
      (pySplit text).take c ++
        ((List.range (cs.length - 1)).map
          (fun j => (((pySplit text).drop ((j + 1) * (c - o))).take c).drop o)).flatten
        = pySplit text :=
  chunksFromWords_spec (pySplit text) (pySplit_solid text) c o ho hn

/-- C3 witness: the input `"a b c d"` with `chunk_size = 3`, `overlap = 1`:
`ceil(4 / 2) = 2` chunks, windows `[0:3)` and `[2:4)`, and reconstruction
holds. -/
theorem C3_chunker_witness :
    ∃ cs, create_chunks "a b c d" ((3 : Nat) : Int) ((1 : Nat) : Int) = .ok cs ∧
      cs.length = ((pySplit "a b c d").length + (3 - 1) - 1) / (3 - 1) ∧
      (∀ k, (hk : k < cs.length) →
        cs.get ⟨k, hk⟩ = joinWords (((pySplit "a b c d").drop (k * (3 - 1))).take 3)) ∧
      (pySplit "a b c d").take 3 ++
        ((List.range (cs.length - 1)).map
          (fun j => (((pySplit "a b c d").drop ((j + 1) * (3 - 1))).take 3).drop 1)).flatten
        = pySplit "a b c d" :=
  C3_chunker_amended "a b c d" 3 1 (by decide) (by decide)

end DocAI
